import Mathlib

/-!
Verification of the fifo-map repository: an insertion-ordered hash
set/map (`nonstd::fifo_set` in include/nonstd/fifo-set.hpp and
`nonstd::fifo_map` in include/nonstd/fifo-map.hpp).

Both containers are a singly-linked order list (std::forward_list) of
elements together with a hash index (std::unordered_map) mapping the
identity of each stored element (the value itself for the set, the key
for the map) to the list position *immediately before* that element's
node, plus a cached `list_back` cursor used for O(1) append.

The embedding models the order list as a `List` of nodes carrying stable
node ids (forward_list nodes never move in memory, so a node id plays
the role of the node's address and an iterator is either the
`before_begin` sentinel or a node id).  The unordered index is modelled
as an association list accessed only through find/erase/assign, which is
faithful because the source only uses `find`, `emplace`, `erase`, and
`at` on it.  Since both headers implement the very same engine and
differ only in how the identity is projected out of a stored element,
the engine is defined once, parameterized by the identity projection
`ident : ε → κ` (`id` for fifo_set, `Prod.fst` for fifo_map).
-/

set_option linter.unusedSectionVars false

namespace FifoSpec

/-- A `std::forward_list` iterator usable as an insertion/erasure anchor:
either the `before_begin()` sentinel of the list or the node with the
given stable id. -/
inductive Pos where
  | sentinel : Pos
  | node : Nat → Pos
deriving DecidableEq, Repr

/-- The container state shared by `fifo_set` and `fifo_map`:
`list` is the order list (`std::forward_list`, nodes tagged with stable
ids standing for their addresses), `idx` is the `std::unordered_map`
index from identity to predecessor position, `tail` is the `list_back`
cursor, and `nextId` is the supply of fresh node ids. -/
structure Fifo (ε κ : Type) where
  list : List (Nat × ε)
  idx : List (κ × Pos)
  tail : Pos
  nextId : Nat
deriving DecidableEq

variable {ε κ : Type} [DecidableEq κ]

/-- `map.find(k)` on the index: the stored predecessor position of the
element with identity `k`, if any. -/
def idxFind (idx : List (κ × Pos)) (k : κ) : Option Pos :=
  (idx.find? (fun e => decide (e.1 = k))).map (fun e => e.2)

/-- `map.erase(map.find(k))` on the index: drop the entry for `k`. -/
def idxErase (idx : List (κ × Pos)) (k : κ) : List (κ × Pos) :=
  idx.eraseP (fun e => decide (e.1 = k))

/-- `map.at(k) = p` on the index: overwrite the stored position for `k`. -/
def idxSet (idx : List (κ × Pos)) (k : κ) (p : Pos) : List (κ × Pos) :=
  idx.map (fun e => if e.1 = k then (e.1, p) else e)

/-- `list.insert_after(p, n)`: splice node `n` immediately after
position `p`.  (Inserting after a dangling iterator is undefined
behaviour in the source; the total model appends in that case, which is
never reached from states satisfying the representation invariant.) -/
def insertAfter (n : Nat × ε) : List (Nat × ε) → Pos → List (Nat × ε)
  | l, .sentinel => n :: l
  | [], .node _ => [n]
  | x :: xs, .node i => if x.1 = i then x :: n :: xs else x :: insertAfter n xs (.node i)

/-- `list.erase_after(p)`: unlink the node immediately after position
`p`; returns the new list together with the iterator the call returns,
namely the node now following `p` (`none` standing for `end()`). -/
def eraseAfter : List (Nat × ε) → Pos → List (Nat × ε) × Option (Nat × ε)
  | l, .sentinel => (l.tail, l.tail.head?)
  | [], .node _ => ([], none)
  | x :: xs, .node i =>
      if x.1 = i then (x :: xs.tail, xs.tail.head?)
      else
        let r := eraseAfter xs (.node i)
        (x :: r.1, r.2)

/-- The node following the node with id `i`, if any. -/
def followOf : List (Nat × ε) → Nat → Option (Nat × ε)
  | [], _ => none
  | x :: xs, i => if x.1 = i then xs.head? else followOf xs i

/-- `++it` on a predecessor position: the node one step after `p`
(`none` standing for `end()`). -/
def advance (l : List (Nat × ε)) : Pos → Option (Nat × ε)
  | .sentinel => l.head?
  | .node i => followOf l i

/-- The position of the last node of `l`, where `p` is the position
preceding `l`; `lastPosFrom Pos.sentinel l` is the correct value of the
`list_back` cursor for the whole list `l`. -/
def lastPosFrom : Pos → List (Nat × ε) → Pos
  | p, [] => p
  | _, x :: xs => lastPosFrom (.node x.1) xs

/-- The canonical index contents for order list `l` preceded by position
`p`: each element's identity paired with the position immediately before
its node.  A well-formed container's `idx` field is a permutation of
`canonPairs ident Pos.sentinel list`. -/
def canonPairs (ident : ε → κ) : Pos → List (Nat × ε) → List (κ × Pos)
  | _, [] => []
  | p, x :: xs => (ident x.2, p) :: canonPairs ident (.node x.1) xs

namespace Fifo

variable (ident : ε → κ)

/-- The default-constructed container. -/
def empty : Fifo ε κ := ⟨[], [], Pos.sentinel, 0⟩

/-- The iteration sequence `begin()..end()`: the stored elements in
order. -/
def toValues (s : Fifo ε κ) : List ε := s.list.map (fun n => n.2)

/-- `emplace_back`: look the identity up; if absent, splice a new node
after `list_back`, record the old `list_back` as the new node's
predecessor entry, and advance `list_back` to the new node; if present,
mutate nothing and return the existing node with a `false` flag. -/
def emplace_back (s : Fifo ε κ) (v : ε) : Fifo ε κ × Option (Nat × ε) × Bool :=
  match idxFind s.idx (ident v) with
  | none =>
      let list_before_item := s.tail
      let nid := s.nextId
      ({ list := insertAfter (nid, v) s.list list_before_item
         idx := (ident v, list_before_item) :: s.idx
         tail := Pos.node nid
         nextId := nid + 1 }, some (nid, v), true)
  | some p => (s, advance s.list p, false)

/-- `emplace` forwards to `emplace_back` (interface compatibility with
the standard unordered containers). -/
def emplace (s : Fifo ε κ) (v : ε) : Fifo ε κ × Option (Nat × ε) × Bool :=
  emplace_back ident s v

/-- `emplace_front` (exposed by fifo_set only): if the identity is
absent, splice the new node after the position stored for the current
front element (the sentinel, in a well-formed container) — or after
`list_back` when the container is empty, which also advances
`list_back` — and rebind the old front's predecessor entry to the new
node.  `map.at` on an absent front identity throws in the source; the
model returns the state unchanged in that (invariant-unreachable)
case. -/
def emplace_front (s : Fifo ε κ) (v : ε) : Fifo ε κ × Option (Nat × ε) × Bool :=
  match idxFind s.idx (ident v) with
  | none =>
      if s.idx.isEmpty then
        let list_before_item := s.tail
        let nid := s.nextId
        ({ list := insertAfter (nid, v) s.list list_before_item
           idx := (ident v, list_before_item) :: s.idx
           tail := Pos.node nid
           nextId := nid + 1 }, some (nid, v), true)
      else
        match s.list.head? with
        | none => (s, none, false)
        | some front =>
          match idxFind s.idx (ident front.2) with
          | none => (s, none, false)
          | some list_before_item =>
            let nid := s.nextId
            ({ list := insertAfter (nid, v) s.list list_before_item
               idx := (ident v, list_before_item) ::
                        idxSet s.idx (ident front.2) (Pos.node nid)
               tail := s.tail
               nextId := nid + 1 }, some (nid, v), true)
  | some p => (s, advance s.list p, false)

/-- `erase(identity)`: silently do nothing if absent; otherwise drop the
index entry, unlink the node after its recorded predecessor, and repair
either `list_back` (when the erased node was last) or the successor's
predecessor entry. -/
def erase (s : Fifo ε κ) (k : κ) : Fifo ε κ :=
  match idxFind s.idx k with
  | none => s
  | some list_before_item =>
      let idx1 := idxErase s.idx k
      let r := eraseAfter s.list list_before_item
      match r.2 with
      | none => { s with idx := idx1, list := r.1, tail := list_before_item }
      | some nxt => { s with idx := idxSet idx1 (ident nxt.2) list_before_item, list := r.1 }

/-- `erase(iterator)`: the source looks the pointed-to element's
identity up in the index and asserts it is found, then performs the same
five-step repair as erase-by-identity; with the assertion modelled as a
no-op on failure this coincides with erase-by-identity of the node's
identity. -/
def eraseIter (s : Fifo ε κ) (it : Nat × ε) : Fifo ε κ :=
  erase ident s (ident it.2)

/-- `clear()`: empty the index and list and reset `list_back` to the
sentinel. -/
def clear (s : Fifo ε κ) : Fifo ε κ :=
  { list := [], idx := [], tail := Pos.sentinel, nextId := s.nextId }

/-- `count(k)`: number of index entries with identity `k`. -/
def count (s : Fifo ε κ) (k : κ) : Nat :=
  s.idx.countP (fun e => decide (e.1 = k))

/-- `size()`: size of the index. -/
def size (s : Fifo ε κ) : Nat := s.idx.length

/-- `empty()`: whether the index is empty. -/
def isEmpty (s : Fifo ε κ) : Bool := s.idx.isEmpty

/-- `find(k)`: `end()` (modelled as `none`) if absent, otherwise one
step after the stored predecessor position. -/
def find (s : Fifo ε κ) (k : κ) : Option (Nat × ε) :=
  match idxFind s.idx k with
  | none => none
  | some p => advance s.list p

/-- The move constructor (and move assignment, which performs the same
repairs): take over index, list and `list_back`, reset `list_back` to
the new sentinel when the list is empty, and rebind the front element's
predecessor entry to the new list's `before_begin()`. -/
def moveConstruct (s : Fifo ε κ) : Fifo ε κ :=
  let tail1 := if s.list.isEmpty then Pos.sentinel else s.tail
  match s.list.head? with
  | none => { list := s.list, idx := s.idx, tail := tail1, nextId := s.nextId }
  | some front =>
      { list := s.list
        idx := idxSet s.idx (ident front.2) Pos.sentinel
        tail := tail1
        nextId := s.nextId }

end Fifo

/-- Representation invariant of the engine: node ids are distinct and
below the fresh-id supply, identities of live nodes are distinct
(invariant I4), the index is a permutation of the canonical
identity-to-predecessor association (invariants I1 and I2), and
`list_back` is the position of the last node (sentinel iff empty). -/
def Inv (ident : ε → κ) (s : Fifo ε κ) : Prop :=
  (s.list.map (fun n => n.1)).Nodup ∧
  (∀ n ∈ s.list, n.1 < s.nextId) ∧
  (s.list.map (fun n => ident n.2)).Nodup ∧
  s.idx.Perm (canonPairs ident Pos.sentinel s.list) ∧
  s.tail = lastPosFrom Pos.sentinel s.list

/-! The set facade `nonstd::fifo_set`: elements are bare values and the
identity is the value itself. -/

namespace fifo_set

variable {α : Type} [DecidableEq α]

abbrev State (α : Type) [DecidableEq α] := Fifo α α

def empty : State α := Fifo.empty

def emplace_back (s : State α) (v : α) : State α × Option (Nat × α) × Bool :=
  Fifo.emplace_back id s v

def emplace (s : State α) (v : α) : State α × Option (Nat × α) × Bool :=
  emplace_back s v

def emplace_front (s : State α) (v : α) : State α × Option (Nat × α) × Bool :=
  Fifo.emplace_front id s v

def erase (s : State α) (x : α) : State α :=
  Fifo.erase id s x

/-- Copy assignment: `clear()` the destination, then `emplace_back`
every element of the source in iteration order. -/
def copyAssign (dst src : State α) : State α :=
  src.toValues.foldl (fun acc v => (emplace_back acc v).1) (Fifo.clear dst)

/-- Self assignment `s = s`: after the initial `clear()` the source
range being iterated is the destination itself and hence already empty,
so the re-insertion loop body never runs. -/
def copyAssignSelf (s : State α) : State α :=
  let c := Fifo.clear s
  c.toValues.foldl (fun acc v => (emplace_back acc v).1) c

end fifo_set

/-! The map facade `nonstd::fifo_map`: elements are key/value pairs and
the identity is the key. -/

namespace fifo_map

variable {κ μ : Type} [DecidableEq κ]

abbrev State (κ μ : Type) [DecidableEq κ] := Fifo (κ × μ) κ

def empty : State κ μ := Fifo.empty

def emplace_back (s : State κ μ) (v : κ × μ) : State κ μ × Option (Nat × (κ × μ)) × Bool :=
  Fifo.emplace_back Prod.fst s v

def emplace (s : State κ μ) (v : κ × μ) : State κ μ × Option (Nat × (κ × μ)) × Bool :=
  emplace_back s v

def erase (s : State κ μ) (k : κ) : State κ μ :=
  Fifo.erase Prod.fst s k

def find (s : State κ μ) (k : κ) : Option (Nat × (κ × μ)) :=
  Fifo.find s k

/-- `at(k)`: `map.at` on the index (throwing `std::out_of_range`,
modelled as `none`, when the key is absent), then one step forward and
a dereference of the mapped value. -/
def at? (s : State κ μ) (k : κ) : Option μ :=
  match idxFind s.idx k with
  | none => none
  | some p => (advance s.list p).map (fun n => n.2.2)

/-- `operator[](k)`: `find`, and on a miss `emplace(key, mapped_type{})`
— the state after the call together with the node whose mapped value
the returned reference designates. -/
def opIndex [Inhabited μ] (s : State κ μ) (k : κ) :
    State κ μ × Option (Nat × (κ × μ)) :=
  match find s k with
  | some n => (s, some n)
  | none =>
      let r := emplace s (k, default)
      (r.1, r.2.1)

/-- Writing through a reference to a node's mapped value (the C++
assignment `m[k] = v` writes through the reference `operator[]`
returned): replace the mapped value stored in node `nid`. -/
def setMapped (s : State κ μ) (nid : Nat) (m : μ) : State κ μ :=
  { s with list := s.list.map (fun n => if n.1 = nid then (n.1, (n.2.1, m)) else n) }

/-- The compound `m[k] = v`. -/
def assign [Inhabited μ] (s : State κ μ) (k : κ) (m : μ) : State κ μ :=
  let r := opIndex s k
  match r.2 with
  | some n => setMapped r.1 n.1 m
  | none => r.1

end fifo_map

/-- One public mutating operation of the engine, used to state
invariants over arbitrary operation sequences. -/
inductive Op (ε κ : Type) where
  | emplaceBack (v : ε)
  | emplaceFront (v : ε)
  | eraseId (k : κ)
  | eraseIt (it : Nat × ε)
  | clearOp
  | move

/-- Run one public operation. -/
def runOp (ident : ε → κ) (s : Fifo ε κ) : Op ε κ → Fifo ε κ
  | .emplaceBack v => (Fifo.emplace_back ident s v).1
  | .emplaceFront v => (Fifo.emplace_front ident s v).1
  | .eraseId k => Fifo.erase ident s k
  | .eraseIt it => Fifo.eraseIter ident s it
  | .clearOp => Fifo.clear s
  | .move => Fifo.moveConstruct ident s

/-- Run a sequence of public operations from a starting state. -/
def runOps (ident : ε → κ) (s : Fifo ε κ) (ops : List (Op ε κ)) : Fifo ε κ :=
  ops.foldl (runOp ident) s

/-- The position held by the `list_back` cursor (the last node, or the
preceding anchor if the list is empty). -/
def lastPos (l : List (Nat × ε)) : Pos := lastPosFrom Pos.sentinel l

instance {α : Type} [DecidableEq α] (l₁ l₂ : List α) : Decidable (l₁.Perm l₂) :=
  decidable_of_iff _ List.isPerm_iff

instance (ident : ε → κ) (s : Fifo ε κ) : Decidable (Inv ident s) := by
  unfold Inv
  infer_instance

/-! Lemmas about the index operations. -/

theorem idxFind_cons (e : κ × Pos) (idx : List (κ × Pos)) (k : κ) :
    idxFind (e :: idx) k = if e.1 = k then some e.2 else idxFind idx k := by
  by_cases h : e.1 = k <;> simp [idxFind, List.find?_cons, h]

theorem idxFind_eq_none_iff (idx : List (κ × Pos)) (k : κ) :
    idxFind idx k = none ↔ ∀ e ∈ idx, e.1 ≠ k := by
  simp [idxFind, List.find?_eq_none]

theorem idxFind_some {idx : List (κ × Pos)} {k : κ} {p : Pos}
    (h : idxFind idx k = some p) : ∃ e ∈ idx, e.1 = k ∧ e.2 = p := by
  unfold idxFind at h
  cases hf : idx.find? (fun e => decide (e.1 = k)) with
  | none => rw [hf] at h; cases h
  | some e =>
    rw [hf] at h
    have h1 := List.find?_some hf
    have h2 := List.mem_of_find?_eq_some hf
    exact ⟨e, h2, by simpa using h1, by simpa using h⟩

theorem idxFind_append_none {idx₁ idx₂ : List (κ × Pos)} {k : κ}
    (h : idxFind idx₁ k = none) :
    idxFind (idx₁ ++ idx₂) k = idxFind idx₂ k := by
  unfold idxFind at *
  rw [List.find?_append]
  cases hf : idx₁.find? (fun e => decide (e.1 = k)) with
  | none => simp
  | some e => rw [hf] at h; cases h

theorem idxFind_of_mem {idx : List (κ × Pos)}
    (hnd : (idx.map (fun e => e.1)).Nodup) {e : κ × Pos} (he : e ∈ idx) :
    idxFind idx e.1 = some e.2 := by
  induction idx with
  | nil => cases he
  | cons h t ih =>
    rw [idxFind_cons]
    rcases List.mem_cons.mp he with rfl | ht
    · simp
    · have hne : h.1 ≠ e.1 := by
        intro hk
        rw [List.map_cons, List.nodup_cons] at hnd
        exact hnd.1 (hk ▸ List.mem_map.mpr ⟨e, ht, rfl⟩)
      rw [if_neg hne]
      exact ih (by rw [List.map_cons] at hnd; exact hnd.of_cons) ht

theorem idxFind_perm {idx idx' : List (κ × Pos)} (hperm : idx.Perm idx')
    (hnd : (idx'.map (fun e => e.1)).Nodup) (k : κ) :
    idxFind idx k = idxFind idx' k := by
  cases hfind : idxFind idx k with
  | none =>
    symm
    rw [idxFind_eq_none_iff] at hfind ⊢
    exact fun e he => hfind e (hperm.mem_iff.mpr he)
  | some p =>
    obtain ⟨e, he, hk, hp⟩ := idxFind_some hfind
    subst hk; subst hp
    exact (idxFind_of_mem hnd (hperm.mem_iff.mp he)).symm

theorem idxSet_keys (idx : List (κ × Pos)) (k : κ) (p : Pos) :
    (idxSet idx k p).map (fun e => e.1) = idx.map (fun e => e.1) := by
  unfold idxSet
  rw [List.map_map]
  exact List.map_congr_left (fun e _ => by by_cases h : e.1 = k <;> simp [h])

theorem idxSet_of_not_mem {idx : List (κ × Pos)} {k : κ} (p : Pos)
    (h : ∀ e ∈ idx, e.1 ≠ k) : idxSet idx k p = idx := by
  unfold idxSet
  have : ∀ e ∈ idx, (if e.1 = k then (e.1, p) else e) = id e :=
    fun e he => by rw [if_neg (h e he)]; rfl
  rw [List.map_congr_left this, List.map_id]

theorem idxSet_congr_id {idx : List (κ × Pos)} {k : κ} {p : Pos}
    (h : ∀ e ∈ idx, e.1 = k → e.2 = p) : idxSet idx k p = idx := by
  unfold idxSet
  have : ∀ e ∈ idx, (if e.1 = k then (e.1, p) else e) = id e := by
    intro e he
    by_cases hk : e.1 = k
    · simp only [if_pos hk, id]
      have := h e he hk
      cases e; simp_all
    · rw [if_neg hk]; rfl
  rw [List.map_congr_left this, List.map_id]

theorem idxSet_append (idx₁ idx₂ : List (κ × Pos)) (k : κ) (p : Pos) :
    idxSet (idx₁ ++ idx₂) k p = idxSet idx₁ k p ++ idxSet idx₂ k p := by
  unfold idxSet
  exact List.map_append _ _ _

theorem idxSet_cons (e : κ × Pos) (idx : List (κ × Pos)) (k : κ) (p : Pos) :
    idxSet (e :: idx) k p =
      (if e.1 = k then (e.1, p) else e) :: idxSet idx k p := rfl

theorem idxFind_idxSet_other {idx : List (κ × Pos)} {k k' : κ} (p : Pos)
    (h : k' ≠ k) : idxFind (idxSet idx k p) k' = idxFind idx k' := by
  induction idx with
  | nil => rfl
  | cons e t ih =>
    rw [idxSet_cons, idxFind_cons (if e.1 = k then (e.1, p) else e) (idxSet t k p) k',
      idxFind_cons e t k']
    by_cases hk : e.1 = k
    · have h1 : ¬ (e.1 = k') := by rw [hk]; exact fun hh => h hh.symm
      rw [if_pos hk, if_neg (by simpa using h1), if_neg h1]
      exact ih
    · rw [if_neg hk]
      by_cases hk' : e.1 = k'
      · rw [if_pos hk', if_pos hk']
      · rw [if_neg hk', if_neg hk']
        exact ih

theorem idxErase_cons (e : κ × Pos) (idx : List (κ × Pos)) (k : κ) :
    idxErase (e :: idx) k = if e.1 = k then idx else e :: idxErase idx k := by
  by_cases h : e.1 = k <;> simp [idxErase, List.eraseP_cons, h]

theorem idxErase_of_not_mem {idx : List (κ × Pos)} {k : κ}
    (h : ∀ e ∈ idx, e.1 ≠ k) : idxErase idx k = idx := by
  induction idx with
  | nil => rfl
  | cons e t ih =>
    rw [idxErase_cons, if_neg (h e (List.mem_cons_self e t))]
    rw [ih (fun x hx => h x (List.mem_cons_of_mem e hx))]

theorem idxErase_append {idx₁ idx₂ : List (κ × Pos)} {k : κ}
    (h : ∀ e ∈ idx₁, e.1 ≠ k) :
    idxErase (idx₁ ++ idx₂) k = idx₁ ++ idxErase idx₂ k := by
  induction idx₁ with
  | nil => rfl
  | cons e t ih =>
    rw [List.cons_append, idxErase_cons,
      if_neg (h e (List.mem_cons_self e t)), ih (fun x hx => h x (List.mem_cons_of_mem e hx))]
    rfl

theorem idxErase_perm {idx idx' : List (κ × Pos)} (hperm : idx.Perm idx')
    (hnd : (idx'.map (fun e => e.1)).Nodup) (k : κ) :
    (idxErase idx k).Perm (idxErase idx' k) := by
  induction hperm with
  | nil => exact List.Perm.refl _
  | cons e hp ih =>
    rw [idxErase_cons, idxErase_cons]
    by_cases hk : e.1 = k
    · rw [if_pos hk, if_pos hk]; exact hp
    · rw [if_neg hk, if_neg hk]
      exact List.Perm.cons e (ih (by rw [List.map_cons] at hnd; exact hnd.of_cons))
  | swap e f t =>
    rw [idxErase_cons f (e :: t) k, idxErase_cons e (f :: t) k,
      idxErase_cons e t k, idxErase_cons f t k]
    by_cases hf : f.1 = k <;> by_cases he : e.1 = k
    · exfalso
      rw [List.map_cons, List.nodup_cons] at hnd
      exact hnd.1 (List.mem_map.mpr ⟨f, List.mem_cons_self f t, by simpa using hf.trans he.symm⟩)
    · rw [if_pos hf, if_neg he, if_pos hf]
    · rw [if_neg hf, if_pos he, if_pos he]
    · rw [if_neg hf, if_neg he, if_neg he, if_neg hf]
      exact List.Perm.swap e f _
  | trans h₁ h₂ ih₁ ih₂ =>
    have hmid : _ := h₂.map (fun e => e.1)
    exact (ih₁ (hmid.nodup_iff.mpr hnd)).trans (ih₂ hnd)

/-! Lemmas about positions in the order list. -/

theorem lastPosFrom_cons (p : Pos) (x : Nat × ε) (xs : List (Nat × ε)) :
    lastPosFrom p (x :: xs) = lastPosFrom (Pos.node x.1) xs := rfl

theorem lastPosFrom_append (p : Pos) (X Y : List (Nat × ε)) :
    lastPosFrom p (X ++ Y) = lastPosFrom (lastPosFrom p X) Y := by
  induction X generalizing p with
  | nil => rfl
  | cons x xs ih => rw [List.cons_append, lastPosFrom_cons, lastPosFrom_cons, ih]

theorem lastPosFrom_cons_node (p : Pos) (x : Nat × ε) (xs : List (Nat × ε)) :
    ∃ j, lastPosFrom p (x :: xs) = Pos.node j ∧ j ∈ (x :: xs).map (fun n => n.1) := by
  induction xs generalizing x p with
  | nil => exact ⟨x.1, rfl, by simp⟩
  | cons y ys ih =>
    obtain ⟨j, hj, hmem⟩ := ih (Pos.node x.1) y
    exact ⟨j, by rw [lastPosFrom_cons]; exact hj,
      by rw [List.map_cons]; exact List.mem_cons_of_mem _ hmem⟩

theorem lastPosFrom_indep (p q : Pos) (x : Nat × ε) (xs : List (Nat × ε)) :
    lastPosFrom p (x :: xs) = lastPosFrom q (x :: xs) := rfl

/-! Lemmas about the canonical index association. -/

theorem canonPairs_append (ident : ε → κ) (p : Pos) (X Y : List (Nat × ε)) :
    canonPairs ident p (X ++ Y) =
      canonPairs ident p X ++ canonPairs ident (lastPosFrom p X) Y := by
  induction X generalizing p with
  | nil => rfl
  | cons x xs ih =>
    rw [List.cons_append, canonPairs, canonPairs, lastPosFrom_cons, ih, List.cons_append]

theorem canonPairs_keys (ident : ε → κ) (p : Pos) (l : List (Nat × ε)) :
    (canonPairs ident p l).map (fun e => e.1) = l.map (fun n => ident n.2) := by
  induction l generalizing p with
  | nil => rfl
  | cons x xs ih => rw [canonPairs, List.map_cons, List.map_cons, ih]

theorem canonPairs_mem (ident : ε → κ) (p₀ : Pos) {l : List (Nat × ε)} {n : Nat × ε}
    (hn : n ∈ l) : ∃ q, (ident n.2, q) ∈ canonPairs ident p₀ l := by
  induction l generalizing p₀ with
  | nil => cases hn
  | cons x xs ih =>
    rcases List.mem_cons.mp hn with rfl | hx
    · exact ⟨p₀, List.mem_cons_self _ _⟩
    · obtain ⟨q, hq⟩ := ih (Pos.node x.1) hx
      exact ⟨q, List.mem_cons_of_mem _ hq⟩

theorem canonPairs_find_none_iff (ident : ε → κ) (p₀ : Pos) (l : List (Nat × ε)) (k : κ) :
    idxFind (canonPairs ident p₀ l) k = none ↔ ∀ n ∈ l, ident n.2 ≠ k := by
  rw [idxFind_eq_none_iff]
  constructor
  · intro h n hn
    obtain ⟨q, hq⟩ := canonPairs_mem ident p₀ hn
    exact h (ident n.2, q) hq
  · intro h e he
    have : e.1 ∈ (canonPairs ident p₀ l).map (fun e => e.1) :=
      List.mem_map.mpr ⟨e, he, rfl⟩
    rw [canonPairs_keys] at this
    obtain ⟨n, hn, hk⟩ := List.mem_map.mp this
    exact hk ▸ h n hn

theorem canonPairs_find_decomp (ident : ε → κ) {p₀ : Pos} {l : List (Nat × ε)} {k : κ} {p : Pos}
    (h : idxFind (canonPairs ident p₀ l) k = some p) :
    ∃ A m B, l = A ++ m :: B ∧ ident m.2 = k ∧ (∀ n ∈ A, ident n.2 ≠ k) ∧
      p = lastPosFrom p₀ A := by
  induction l generalizing p₀ with
  | nil => cases h
  | cons x xs ih =>
    rw [canonPairs, idxFind_cons] at h
    by_cases hx : ident x.2 = k
    · rw [if_pos hx] at h
      exact ⟨[], x, xs, rfl, hx, by simp, by simpa using h.symm⟩
    · rw [if_neg hx] at h
      obtain ⟨A, m, B, hl, hm, hA, hp⟩ := ih h
      refine ⟨x :: A, m, B, by rw [hl]; rfl, hm, ?_, by rw [lastPosFrom_cons]; exact hp⟩
      intro n hn
      rcases List.mem_cons.mp hn with rfl | hn'
      · exact hx
      · exact hA n hn'

theorem canonPairs_find_first (ident : ε → κ) (p₀ : Pos) {A : List (Nat × ε)}
    (m : Nat × ε) (B : List (Nat × ε)) {k : κ} (hm : ident m.2 = k)
    (hA : ∀ n ∈ A, ident n.2 ≠ k) :
    idxFind (canonPairs ident p₀ (A ++ m :: B)) k = some (lastPosFrom p₀ A) := by
  rw [canonPairs_append]
  rw [idxFind_append_none ((canonPairs_find_none_iff ident p₀ A k).mpr hA)]
  rw [canonPairs, idxFind_cons, if_pos hm]

/-! Lemmas about list surgery at the recorded positions. -/

theorem insertAfter_lastPos (n : Nat × ε) (l : List (Nat × ε))
    (hnd : (l.map (fun x => x.1)).Nodup) :
    insertAfter n l (lastPosFrom Pos.sentinel l) = l ++ [n] := by
  induction l with
  | nil => rfl
  | cons x xs ih =>
    cases xs with
    | nil => simp [lastPosFrom, insertAfter]
    | cons y ys =>
      obtain ⟨j, hj, hjmem⟩ := lastPosFrom_cons_node (Pos.node x.1) y ys
      rw [lastPosFrom_cons, hj]
      have hxj : x.1 ≠ j := by
        rw [List.map_cons, List.nodup_cons] at hnd
        exact fun hh => hnd.1 (hh ▸ hjmem)
      rw [insertAfter, if_neg hxj]
      have := ih (by rw [List.map_cons, List.nodup_cons] at hnd; exact hnd.2)
      rw [lastPosFrom_indep Pos.sentinel (Pos.node x.1) y ys] at this
      rw [hj] at this
      rw [this]
      rfl

theorem eraseAfter_decomp (A : List (Nat × ε)) (m : Nat × ε) (B : List (Nat × ε))
    (hnd : ((A ++ m :: B).map (fun x => x.1)).Nodup) :
    eraseAfter (A ++ m :: B) (lastPosFrom Pos.sentinel A) = (A ++ B, B.head?) := by
  induction A with
  | nil => simp [lastPosFrom, eraseAfter]
  | cons x A' ih =>
    cases A' with
    | nil => simp [lastPosFrom, eraseAfter]
    | cons y A'' =>
      obtain ⟨j, hj, hjmem⟩ := lastPosFrom_cons_node (Pos.node x.1) y A''
      rw [lastPosFrom_cons, hj]
      have hxj : x.1 ≠ j := by
        rw [List.cons_append, List.map_cons, List.nodup_cons] at hnd
        refine fun hh => hnd.1 (hh ▸ ?_)
        have hsub : List.Sublist ((y :: A'').map (fun x => x.1))
            (((y :: A'') ++ m :: B).map (fun x => x.1)) := by
          rw [List.map_append]
          exact List.sublist_append_left _ _
        exact hsub.subset hjmem
      rw [List.cons_append, eraseAfter, if_neg hxj]
      have := ih (by rw [List.cons_append, List.map_cons, List.nodup_cons] at hnd; exact hnd.2)
      rw [lastPosFrom_indep Pos.sentinel (Pos.node x.1) y A''] at this
      rw [hj] at this
      rw [this]
      rfl

theorem advance_lastPos (A : List (Nat × ε)) (m : Nat × ε) (B : List (Nat × ε))
    (hnd : ((A ++ m :: B).map (fun x => x.1)).Nodup) :
    advance (A ++ m :: B) (lastPosFrom Pos.sentinel A) = some m := by
  induction A with
  | nil => simp [lastPosFrom, advance]
  | cons x A' ih =>
    cases A' with
    | nil => simp [lastPosFrom, advance, followOf]
    | cons y A'' =>
      obtain ⟨j, hj, hjmem⟩ := lastPosFrom_cons_node (Pos.node x.1) y A''
      rw [lastPosFrom_cons, hj]
      have hxj : x.1 ≠ j := by
        rw [List.cons_append, List.map_cons, List.nodup_cons] at hnd
        refine fun hh => hnd.1 (hh ▸ ?_)
        have hsub : List.Sublist ((y :: A'').map (fun x => x.1))
            (((y :: A'') ++ m :: B).map (fun x => x.1)) := by
          rw [List.map_append]
          exact List.sublist_append_left _ _
        exact hsub.subset hjmem
      rw [List.cons_append, advance, followOf, if_neg hxj]
      have := ih (by rw [List.cons_append, List.map_cons, List.nodup_cons] at hnd; exact hnd.2)
      rw [lastPosFrom_indep Pos.sentinel (Pos.node x.1) y A''] at this
      rw [hj] at this
      rw [advance] at this
      rw [this]

/-! The representation invariant: consequences and preservation. -/

theorem inv_empty (ident : ε → κ) : Inv ident (Fifo.empty : Fifo ε κ) := by
  unfold Inv Fifo.empty
  refine ⟨?_, ?_, ?_, ?_, ?_⟩ <;> simp [canonPairs, lastPosFrom]

theorem inv_canonFind {ident : ε → κ} {s : Fifo ε κ} (hInv : Inv ident s) (k : κ) :
    idxFind s.idx k = idxFind (canonPairs ident Pos.sentinel s.list) k :=
  idxFind_perm hInv.2.2.2.1 (by rw [canonPairs_keys]; exact hInv.2.2.1) k

theorem inv_find_none_iff {ident : ε → κ} {s : Fifo ε κ} (hInv : Inv ident s) (k : κ) :
    idxFind s.idx k = none ↔ ∀ n ∈ s.list, ident n.2 ≠ k := by
  rw [inv_canonFind hInv k]
  exact canonPairs_find_none_iff ident Pos.sentinel s.list k

theorem inv_find_decomp {ident : ε → κ} {s : Fifo ε κ} (hInv : Inv ident s) {k : κ} {p : Pos}
    (h : idxFind s.idx k = some p) :
    ∃ A m B, s.list = A ++ m :: B ∧ ident m.2 = k ∧ (∀ n ∈ A, ident n.2 ≠ k) ∧
      p = lastPosFrom Pos.sentinel A := by
  rw [inv_canonFind hInv k] at h
  exact canonPairs_find_decomp ident h

theorem canonPairs_keys_ne (ident : ε → κ) (p₀ : Pos) {A : List (Nat × ε)} {k : κ}
    (hA : ∀ n ∈ A, ident n.2 ≠ k) : ∀ e ∈ canonPairs ident p₀ A, e.1 ≠ k := by
  intro e he
  have hmem : e.1 ∈ (canonPairs ident p₀ A).map (fun e => e.1) :=
    List.mem_map.mpr ⟨e, he, rfl⟩
  rw [canonPairs_keys] at hmem
  obtain ⟨n, hn, hk⟩ := List.mem_map.mp hmem
  exact hk ▸ hA n hn

theorem nodup_map_middle {β : Type} {f : (Nat × ε) → β} {A : List (Nat × ε)}
    {m : Nat × ε} {B : List (Nat × ε)} (h : ((A ++ m :: B).map f).Nodup) :
    ((A ++ B).map f).Nodup :=
  List.Nodup.sublist
    (List.Sublist.map f (List.Sublist.append_left (List.sublist_cons_self m B) A)) h

/-! Effect of `emplace_back` and preservation of the invariant. -/

theorem emplace_back_found {ident : ε → κ} {s : Fifo ε κ} {v : ε} {p : Pos}
    (hfind : idxFind s.idx (ident v) = some p) :
    Fifo.emplace_back ident s v = (s, advance s.list p, false) := by
  unfold Fifo.emplace_back
  rw [hfind]

theorem emplace_back_absent {ident : ε → κ} {s : Fifo ε κ} {v : ε}
    (hInv : Inv ident s) (hfind : idxFind s.idx (ident v) = none) :
    Fifo.emplace_back ident s v =
      (⟨s.list ++ [(s.nextId, v)], (ident v, s.tail) :: s.idx,
        Pos.node s.nextId, s.nextId + 1⟩, some (s.nextId, v), true) := by
  have hins : insertAfter (s.nextId, v) s.list s.tail = s.list ++ [(s.nextId, v)] := by
    rw [hInv.2.2.2.2]
    exact insertAfter_lastPos _ _ hInv.1
  unfold Fifo.emplace_back
  rw [hfind]
  dsimp only
  rw [hins]

theorem inv_emplace_back {ident : ε → κ} {s : Fifo ε κ} (hInv : Inv ident s) (v : ε) :
    Inv ident (Fifo.emplace_back ident s v).1 := by
  cases hfind : idxFind s.idx (ident v) with
  | some p =>
    rw [emplace_back_found hfind]
    exact hInv
  | none =>
    rw [emplace_back_absent hInv hfind]
    obtain ⟨h1, h2, h3, h4, h5⟩ := hInv
    have habs : ∀ n ∈ s.list, ident n.2 ≠ ident v :=
      (inv_find_none_iff ⟨h1, h2, h3, h4, h5⟩ _).mp hfind
    unfold Inv
    dsimp only
    refine ⟨?_, ?_, ?_, ?_, ?_⟩
    · rw [List.map_append, List.nodup_append]
      refine ⟨h1, by simp, ?_⟩
      intro a ha hb
      simp only [List.map_cons, List.map_nil, List.mem_singleton] at hb
      subst hb
      obtain ⟨n, hn, hna⟩ := List.mem_map.mp ha
      exact absurd (hna ▸ h2 n hn) (lt_irrefl _)
    · intro n hn
      rcases List.mem_append.mp hn with h | h
      · exact Nat.lt_succ_of_lt (h2 n h)
      · rw [List.mem_singleton] at h
        rw [h]
        exact Nat.lt_succ_self _
    · rw [List.map_append, List.nodup_append]
      refine ⟨h3, by simp, ?_⟩
      intro a ha hb
      simp only [List.map_cons, List.map_nil, List.mem_singleton] at hb
      subst hb
      obtain ⟨n, hn, hna⟩ := List.mem_map.mp ha
      exact habs n hn hna
    · rw [canonPairs_append]
      have hone : canonPairs ident (lastPosFrom Pos.sentinel s.list) [(s.nextId, v)]
          = [(ident v, lastPosFrom Pos.sentinel s.list)] := rfl
      rw [hone, ← h5]
      exact (h4.cons _).trans (List.perm_append_singleton _ _).symm
    · rw [lastPosFrom_append]
      rfl


/-! Effect of `erase` and preservation of the invariant. -/

theorem erase_absent {ident : ε → κ} {s : Fifo ε κ} {k : κ}
    (hfind : idxFind s.idx k = none) : Fifo.erase ident s k = s := by
  unfold Fifo.erase
  rw [hfind]

theorem erase_present {ident : ε → κ} {s : Fifo ε κ} {k : κ} {p : Pos}
    (hInv : Inv ident s) (hfind : idxFind s.idx k = some p)
    {A : List (Nat × ε)} {m : Nat × ε} {B : List (Nat × ε)}
    (hl : s.list = A ++ m :: B) (hm : ident m.2 = k) (hA : ∀ n ∈ A, ident n.2 ≠ k)
    (hp : p = lastPosFrom Pos.sentinel A) :
    (Fifo.erase ident s k).list = A ++ B ∧
    (Fifo.erase ident s k).nextId = s.nextId ∧
    Inv ident (Fifo.erase ident s k) := by
  obtain ⟨h1, h2, h3, h4, h5⟩ := hInv
  rw [hl] at h1 h3 h4 h5
  have herase_eq : eraseAfter s.list p = (A ++ B, B.head?) := by
    rw [hl, hp]
    exact eraseAfter_decomp A m B h1
  have hAkeys : ∀ e ∈ canonPairs ident Pos.sentinel A, e.1 ≠ k :=
    canonPairs_keys_ne ident Pos.sentinel hA
  cases B with
  | nil =>
    have hstate : Fifo.erase ident s k = ⟨A ++ [], idxErase s.idx k, p, s.nextId⟩ := by
      unfold Fifo.erase
      rw [hfind]
      dsimp only
      rw [herase_eq]
      dsimp only [List.head?]
    have hcanonFull : canonPairs ident Pos.sentinel (A ++ [m]) =
        canonPairs ident Pos.sentinel A ++ [(k, lastPosFrom Pos.sentinel A)] := by
      rw [canonPairs_append]
      simp only [canonPairs]
      rw [hm]
    have hperm : (idxErase s.idx k).Perm (canonPairs ident Pos.sentinel (A ++ [])) := by
      have hstep : (idxErase s.idx k).Perm
          (idxErase (canonPairs ident Pos.sentinel (A ++ [m])) k) :=
        idxErase_perm h4 (by rw [canonPairs_keys]; exact h3) k
      rw [hcanonFull, idxErase_append hAkeys, idxErase_cons, if_pos rfl,
        List.append_nil] at hstep
      rw [List.append_nil]
      exact hstep
    rw [hstate]
    refine ⟨rfl, rfl, ?_, ?_, ?_, ?_, ?_⟩
    · exact nodup_map_middle h1
    · intro n hn
      exact h2 n (by
        rw [hl]
        exact (List.Sublist.append_left (List.sublist_cons_self m []) A).subset hn)
    · exact nodup_map_middle h3
    · exact hperm
    · rw [List.append_nil]
      exact hp
  | cons b B' =>
    have hstate : Fifo.erase ident s k =
        ⟨A ++ b :: B', idxSet (idxErase s.idx k) (ident b.2) p, s.tail, s.nextId⟩ := by
      unfold Fifo.erase
      rw [hfind]
      dsimp only
      rw [herase_eq]
      dsimp only [List.head?]
    have hcanonFull : canonPairs ident Pos.sentinel (A ++ m :: b :: B') =
        canonPairs ident Pos.sentinel A ++ (k, lastPosFrom Pos.sentinel A) ::
          (ident b.2, Pos.node m.1) :: canonPairs ident (Pos.node b.1) B' := by
      rw [canonPairs_append]
      simp only [canonPairs]
      rw [hm]
    have hbA : ∀ n ∈ A, ident n.2 ≠ ident b.2 := by
      rw [List.map_append, List.nodup_append] at h3
      intro n hn hh
      exact h3.2.2 (List.mem_map.mpr ⟨n, hn, rfl⟩)
        (hh ▸ List.mem_map.mpr ⟨b, by simp, rfl⟩)
    have hbB' : ∀ n ∈ B', ident n.2 ≠ ident b.2 := by
      rw [List.map_append, List.nodup_append] at h3
      have hrest := h3.2.1
      rw [List.map_cons, List.nodup_cons] at hrest
      have hrest2 := hrest.2
      rw [List.map_cons, List.nodup_cons] at hrest2
      intro n hn hh
      exact hrest2.1 (hh ▸ List.mem_map.mpr ⟨n, hn, rfl⟩)
    have hperm : (idxSet (idxErase s.idx k) (ident b.2) p).Perm
        (canonPairs ident Pos.sentinel (A ++ b :: B')) := by
      have hstep : (idxErase s.idx k).Perm
          (idxErase (canonPairs ident Pos.sentinel (A ++ m :: b :: B')) k) :=
        idxErase_perm h4 (by rw [canonPairs_keys]; exact h3) k
      rw [hcanonFull, idxErase_append hAkeys, idxErase_cons, if_pos rfl] at hstep
      have hset := hstep.map (fun e => if e.1 = ident b.2 then (e.1, p) else e)
      have hset2 : (idxSet (idxErase s.idx k) (ident b.2) p).Perm
          (idxSet (canonPairs ident Pos.sentinel A ++ (ident b.2, Pos.node m.1) ::
            canonPairs ident (Pos.node b.1) B') (ident b.2) p) := hset
      rw [idxSet_append, idxSet_cons, if_pos rfl,
        idxSet_of_not_mem p (canonPairs_keys_ne ident Pos.sentinel hbA),
        idxSet_of_not_mem p (canonPairs_keys_ne ident (Pos.node b.1) hbB')] at hset2
      have hset3 : (idxSet (idxErase s.idx k) (ident b.2) p).Perm
          (canonPairs ident Pos.sentinel A ++ (ident b.2, p) ::
            canonPairs ident (Pos.node b.1) B') := hset2
      rw [canonPairs_append]
      simp only [canonPairs]
      rw [hp]
      rw [hp] at hset3
      exact hset3
    rw [hstate]
    refine ⟨rfl, rfl, ?_, ?_, ?_, ?_, ?_⟩
    · exact nodup_map_middle h1
    · intro n hn
      exact h2 n (by
        rw [hl]
        exact (List.Sublist.append_left (List.sublist_cons_self m (b :: B')) A).subset hn)
    · exact nodup_map_middle h3
    · exact hperm
    · rw [lastPosFrom_append] at h5 ⊢
      rw [lastPosFrom_cons] at h5
      rw [h5]
      exact lastPosFrom_indep _ _ _ _

theorem inv_erase {ident : ε → κ} {s : Fifo ε κ} (hInv : Inv ident s) (k : κ) :
    Inv ident (Fifo.erase ident s k) := by
  cases hfind : idxFind s.idx k with
  | none => rw [erase_absent hfind]; exact hInv
  | some p =>
    obtain ⟨A, m, B, hl, hm, hA, hp⟩ := inv_find_decomp hInv hfind
    exact (erase_present hInv hfind hl hm hA hp).2.2


/-! Effect of `clear`, `emplace_front` and the move operations. -/

theorem inv_clear (ident : ε → κ) (s : Fifo ε κ) : Inv ident (Fifo.clear s) := by
  unfold Inv Fifo.clear
  refine ⟨?_, ?_, ?_, ?_, ?_⟩ <;> simp [canonPairs, lastPosFrom]

theorem idxFind_idxSet_self {idx : List (κ × Pos)} {k : κ} {q : Pos} (p : Pos)
    (h : idxFind idx k = some q) : idxFind (idxSet idx k p) k = some p := by
  induction idx with
  | nil => cases h
  | cons e t ih =>
    rw [idxFind_cons] at h
    rw [idxSet_cons, idxFind_cons (if e.1 = k then (e.1, p) else e) (idxSet t k p) k]
    by_cases hk : e.1 = k
    · rw [if_pos hk, if_pos (show ((e.1 : κ), p).1 = k from hk)]
    · rw [if_neg hk] at h
      rw [if_neg hk, if_neg hk]
      exact ih h

theorem moveConstruct_eq {ident : ε → κ} {s : Fifo ε κ} (hInv : Inv ident s) :
    Fifo.moveConstruct ident s = s := by
  obtain ⟨ls, ix, tl, ni⟩ := s
  obtain ⟨h1, h2, h3, h4, h5⟩ := hInv
  dsimp only at h1 h2 h3 h4 h5
  unfold Fifo.moveConstruct
  dsimp only
  cases ls with
  | nil =>
    simp only [canonPairs] at h4
    simp only [lastPosFrom] at h5
    subst h5
    simp only [List.isEmpty, List.head?]
    rfl
  | cons front rest =>
    simp only [List.isEmpty, List.head?]
    have hfix : idxSet ix (ident front.2) Pos.sentinel = ix := by
      apply idxSet_congr_id
      intro e he hk
      have hmem := h4.mem_iff.mp he
      simp only [canonPairs] at hmem
      rcases List.mem_cons.mp hmem with rfl | hrest
      · rfl
      · exfalso
        have hkeys : e.1 ∈ (canonPairs ident (Pos.node front.1) rest).map (fun e => e.1) :=
          List.mem_map.mpr ⟨e, hrest, rfl⟩
        rw [canonPairs_keys] at hkeys
        rw [List.map_cons, List.nodup_cons] at h3
        exact h3.1 (hk ▸ hkeys)
    rw [hfix, if_neg Bool.false_ne_true]

theorem inv_moveConstruct {ident : ε → κ} {s : Fifo ε κ} (hInv : Inv ident s) :
    Inv ident (Fifo.moveConstruct ident s) := by
  rw [moveConstruct_eq hInv]
  exact hInv

theorem emplace_front_found {ident : ε → κ} {s : Fifo ε κ} {v : ε} {p : Pos}
    (hfind : idxFind s.idx (ident v) = some p) :
    Fifo.emplace_front ident s v = (s, advance s.list p, false) := by
  unfold Fifo.emplace_front
  rw [hfind]

theorem emplace_front_absent {ident : ε → κ} {s : Fifo ε κ} {v : ε}
    (hInv : Inv ident s) (hfind : idxFind s.idx (ident v) = none) :
    (Fifo.emplace_front ident s v).1.list = (s.nextId, v) :: s.list ∧
    (Fifo.emplace_front ident s v).2 = (some (s.nextId, v), true) ∧
    (∀ front, s.list.head? = some front →
      idxFind (Fifo.emplace_front ident s v).1.idx (ident front.2)
        = some (Pos.node s.nextId)) ∧
    (s.list = [] → (Fifo.emplace_front ident s v).1.tail = Pos.node s.nextId) ∧
    Inv ident (Fifo.emplace_front ident s v).1 := by
  obtain ⟨h1, h2, h3, h4, h5⟩ := hInv
  have habs : ∀ n ∈ s.list, ident n.2 ≠ ident v :=
    (inv_find_none_iff ⟨h1, h2, h3, h4, h5⟩ _).mp hfind
  cases hlist : s.list with
  | nil =>
    rw [hlist] at h4 h5
    simp only [canonPairs] at h4
    simp only [lastPosFrom] at h5
    have hidx : s.idx = [] := List.perm_nil.mp h4
    have hstate : Fifo.emplace_front ident s v =
        (⟨[(s.nextId, v)], [(ident v, Pos.sentinel)], Pos.node s.nextId, s.nextId + 1⟩,
          some (s.nextId, v), true) := by
      unfold Fifo.emplace_front
      rw [hfind]
      dsimp only
      rw [hidx]
      simp only [List.isEmpty, if_true]
      rw [hlist, h5]
      rfl
    rw [hstate]
    refine ⟨rfl, rfl, ?_, fun _ => rfl, ?_⟩
    · intro front hfront
      exact Option.noConfusion hfront
    · unfold Inv
      refine ⟨by simp, ?_, by simp, ?_, rfl⟩
      · intro n hn
        rw [List.mem_singleton] at hn
        rw [hn]
        exact Nat.lt_succ_self _
      · simp only [canonPairs]
        exact List.Perm.refl _
  | cons front rest =>
    have hfront : idxFind s.idx (ident front.2) = some Pos.sentinel := by
      rw [inv_canonFind ⟨h1, h2, h3, h4, h5⟩, hlist]
      simp only [canonPairs]
      rw [idxFind_cons, if_pos rfl]
    have hne : ¬ s.idx.isEmpty := by
      intro hcontra
      have : s.idx = [] := by
        cases hidx : s.idx
        · rfl
        · rw [hidx] at hcontra; cases hcontra
      rw [this] at h4
      have := h4.symm.eq_nil
      rw [hlist] at this
      simp only [canonPairs] at this
      cases this
    have hstate : Fifo.emplace_front ident s v =
        (⟨(s.nextId, v) :: front :: rest,
          (ident v, Pos.sentinel) :: idxSet s.idx (ident front.2) (Pos.node s.nextId),
          s.tail, s.nextId + 1⟩, some (s.nextId, v), true) := by
      unfold Fifo.emplace_front
      rw [hfind]
      dsimp only
      rw [if_neg (by simpa using hne), hlist]
      dsimp only [List.head?]
      rw [hfront]
      dsimp only [insertAfter]
    have hvf : ¬ (ident v = ident front.2) :=
      fun hh => habs front (by rw [hlist]; exact List.mem_cons_self _ _) hh.symm
    have hrest_ne : ∀ n ∈ rest, ident n.2 ≠ ident front.2 := by
      rw [hlist, List.map_cons, List.nodup_cons] at h3
      intro n hn hh
      exact h3.1 (hh ▸ List.mem_map.mpr ⟨n, hn, rfl⟩)
    have hchain : (idxSet s.idx (ident front.2) (Pos.node s.nextId)).Perm
        ((ident front.2, Pos.node s.nextId) :: canonPairs ident (Pos.node front.1) rest) := by
      rw [hlist] at h4
      simp only [canonPairs] at h4
      have hmap := h4.map
        (fun e => if e.1 = ident front.2 then (e.1, Pos.node s.nextId) else e)
      have hmap2 : (idxSet s.idx (ident front.2) (Pos.node s.nextId)).Perm
          (idxSet ((ident front.2, Pos.sentinel) ::
            canonPairs ident (Pos.node front.1) rest) (ident front.2) (Pos.node s.nextId)) :=
        hmap
      rw [idxSet_cons, if_pos (show ((ident front.2 : κ), Pos.sentinel).1 = ident front.2
          from rfl),
        idxSet_of_not_mem _ (canonPairs_keys_ne ident (Pos.node front.1) hrest_ne)] at hmap2
      exact hmap2
    rw [hstate]
    refine ⟨rfl, rfl, ?_, ?_, ?_⟩
    · intro f hf
      rw [List.head?_cons] at hf
      injection hf with hf
      subst hf
      rw [idxFind_cons, if_neg (by simpa using hvf)]
      exact idxFind_idxSet_self _ hfront
    · intro hcontra
      exact List.noConfusion hcontra
    · unfold Inv
      dsimp only
      rw [← hlist]
      refine ⟨?_, ?_, ?_, ?_, ?_⟩
      · rw [List.map_cons, List.nodup_cons]
        refine ⟨?_, h1⟩
        intro hmem
        obtain ⟨n, hn, hna⟩ := List.mem_map.mp hmem
        exact absurd (hna ▸ h2 n hn) (lt_irrefl _)
      · intro n hn
        rcases List.mem_cons.mp hn with rfl | hn'
        · exact Nat.lt_succ_self _
        · exact Nat.lt_succ_of_lt (h2 n hn')
      · rw [List.map_cons, List.nodup_cons]
        refine ⟨?_, h3⟩
        intro hmem
        obtain ⟨n, hn, hna⟩ := List.mem_map.mp hmem
        exact habs n hn hna
      · rw [hlist]
        simp only [canonPairs]
        exact List.Perm.cons _ hchain
      · rw [hlist, lastPosFrom_cons, lastPosFrom_cons]
        rw [hlist, lastPosFrom_cons] at h5
        exact h5

theorem inv_emplace_front {ident : ε → κ} {s : Fifo ε κ} (hInv : Inv ident s) (v : ε) :
    Inv ident (Fifo.emplace_front ident s v).1 := by
  cases hfind : idxFind s.idx (ident v) with
  | some p =>
    rw [emplace_front_found hfind]
    exact hInv
  | none => exact (emplace_front_absent hInv hfind).2.2.2.2

theorem inv_runOp {ident : ε → κ} {s : Fifo ε κ} (hInv : Inv ident s) (op : Op ε κ) :
    Inv ident (runOp ident s op) := by
  cases op with
  | emplaceBack v => exact inv_emplace_back hInv v
  | emplaceFront v => exact inv_emplace_front hInv v
  | eraseId k => exact inv_erase hInv k
  | eraseIt it => exact inv_erase hInv _
  | clearOp => exact inv_clear ident s
  | move =>
    unfold runOp
    rw [moveConstruct_eq hInv]
    exact hInv

theorem inv_runOps {ident : ε → κ} {s : Fifo ε κ} (hInv : Inv ident s)
    (ops : List (Op ε κ)) : Inv ident (runOps ident s ops) := by
  induction ops generalizing s with
  | nil => exact hInv
  | cons op rest ih => exact ih (inv_runOp hInv op)

/-! Derived facts used by the claims. -/

theorem inv_keys_perm {ident : ε → κ} {s : Fifo ε κ} (hInv : Inv ident s) :
    (s.idx.map (fun e => e.1)).Perm (s.list.map (fun n => ident n.2)) := by
  have hperm := hInv.2.2.2.1.map (fun e => e.1)
  rw [canonPairs_keys] at hperm
  exact hperm

theorem inv_ident_inj {ident : ε → κ} {s : Fifo ε κ} (hInv : Inv ident s) {n m : Nat × ε}
    (hn : n ∈ s.list) (hm : m ∈ s.list) (h : ident n.2 = ident m.2) : n = m :=
  List.inj_on_of_nodup_map hInv.2.2.1 hn hm h

theorem inv_find_node {ident : ε → κ} {s : Fifo ε κ} (hInv : Inv ident s) {k : κ} {p : Pos}
    (h : idxFind s.idx k = some p) :
    ∃ m ∈ s.list, ident m.2 = k ∧ advance s.list p = some m := by
  obtain ⟨A, m, B, hl, hm, hA, hp⟩ := inv_find_decomp hInv h
  have h1 := hInv.1
  rw [hl] at h1
  refine ⟨m, ?_, hm, ?_⟩
  · rw [hl]
    exact List.mem_append.mpr (Or.inr (List.mem_cons_self _ _))
  · rw [hl, hp]
    exact advance_lastPos A m B h1

theorem inv_pred_advance {ident : ε → κ} {s : Fifo ε κ} (hInv : Inv ident s) :
    ∀ n ∈ s.list, ∃ p, idxFind s.idx (ident n.2) = some p ∧ advance s.list p = some n := by
  intro n hn
  obtain ⟨A, B, hl⟩ := List.append_of_mem hn
  have hA : ∀ a ∈ A, ident a.2 ≠ ident n.2 := by
    have h3 := hInv.2.2.1
    rw [hl, List.map_append, List.nodup_append] at h3
    intro a ha hh
    exact h3.2.2 (List.mem_map.mpr ⟨a, ha, rfl⟩)
      (hh ▸ List.mem_map.mpr ⟨n, List.mem_cons_self _ _, rfl⟩)
  have h1 := hInv.1
  rw [hl] at h1
  refine ⟨lastPosFrom Pos.sentinel A, ?_, ?_⟩
  · rw [inv_canonFind hInv, hl]
    exact canonPairs_find_first ident Pos.sentinel n B rfl hA
  · rw [hl]
    exact advance_lastPos A n B h1

/-- The state after a sequence of `emplace_back` calls. -/
def insertAll (ident : ε → κ) (s : Fifo ε κ) (vs : List ε) : Fifo ε κ :=
  vs.foldl (fun acc v => (Fifo.emplace_back ident acc v).1) s

theorem insertAll_toValues {ident : ε → κ} {s : Fifo ε κ} (hInv : Inv ident s)
    {vs : List ε} (hnd : (vs.map ident).Nodup)
    (hdis : ∀ v ∈ vs, ∀ n ∈ s.list, ident n.2 ≠ ident v) :
    (insertAll ident s vs).toValues = s.toValues ++ vs ∧ Inv ident (insertAll ident s vs) := by
  induction vs generalizing s with
  | nil =>
    exact ⟨by rw [List.append_nil]; rfl, hInv⟩
  | cons v vs ih =>
    have hfind : idxFind s.idx (ident v) = none :=
      (inv_find_none_iff hInv _).mpr (fun n hn => hdis v (List.mem_cons_self _ _) n hn)
    have heff := emplace_back_absent hInv hfind
    have hInv1 : Inv ident (Fifo.emplace_back ident s v).1 := inv_emplace_back hInv v
    have hs1 : (Fifo.emplace_back ident s v).1 =
        ⟨s.list ++ [(s.nextId, v)], (ident v, s.tail) :: s.idx,
          Pos.node s.nextId, s.nextId + 1⟩ := by rw [heff]
    have hnd1 : (vs.map ident).Nodup := by
      rw [List.map_cons, List.nodup_cons] at hnd
      exact hnd.2
    have hdis1 : ∀ w ∈ vs, ∀ n ∈ (Fifo.emplace_back ident s v).1.list,
        ident n.2 ≠ ident w := by
      intro w hw n hn
      rw [hs1] at hn
      rcases List.mem_append.mp hn with hn' | hn'
      · exact hdis w (List.mem_cons_of_mem _ hw) n hn'
      · rw [List.mem_singleton] at hn'
        rw [hn']
        rw [List.map_cons, List.nodup_cons] at hnd
        intro hh
        exact hnd.1 (hh ▸ List.mem_map.mpr ⟨w, hw, rfl⟩)
    have hrec := ih hInv1 hnd1 hdis1
    have hval1 : (Fifo.emplace_back ident s v).1.toValues = s.toValues ++ [v] := by
      rw [hs1]
      unfold Fifo.toValues
      rw [List.map_append]
      rfl
    refine ⟨?_, hrec.2⟩
    have hfold : insertAll ident s (v :: vs) =
        insertAll ident (Fifo.emplace_back ident s v).1 vs := rfl
    rw [hfold, hrec.1, hval1, List.append_assoc]
    rfl

/-! The claims. -/

/-- A sample reachable set-facade state (elements 0, 1, 2 inserted at the
back in this order), used to witness theorems with hypotheses. -/
def sampleSet : Fifo Nat Nat := insertAll (fun x => x) Fifo.empty [0, 1, 2]

/-- C1: for every sequence of `emplace_back`/`emplace` calls with
pairwise-distinct identities starting from an empty container (the
engine underlying both the set and the map facade), iterating the
container from begin to end yields exactly those elements in insertion
order. -/
theorem emplace_back_order_preservation (ident : ε → κ) (vs : List ε)
    (hnd : (vs.map ident).Nodup) :
    (insertAll ident Fifo.empty vs).toValues = vs := by
  have h := insertAll_toValues (inv_empty ident) hnd (by intro v hv n hn; cases hn)
  rw [h.1]
  rfl

/-- Witness for C1 at the concrete insertion sequence [3, 1, 2]. -/
theorem emplace_back_order_preservation_witness :
    (([3, 1, 2] : List Nat).map (fun x : Nat => x)).Nodup ∧
      (insertAll (fun x : Nat => x) Fifo.empty [3, 1, 2]).toValues = [3, 1, 2] :=
  ⟨by decide, emplace_back_order_preservation (fun x : Nat => x) [3, 1, 2] (by decide)⟩

/-- C2: after any sequence of public operations (emplace_back,
emplace_front, erase by identity or by iterator, clear, move) starting
from an empty container, every live node's stored predecessor index
entry, advanced one step in the order list, yields that very node, and
the index keys are in bijection with the identities of the live
nodes. -/
theorem predecessor_invariant_after_ops (ident : ε → κ) (ops : List (Op ε κ)) :
    (∀ n ∈ (runOps ident Fifo.empty ops).list,
      ∃ p, idxFind (runOps ident Fifo.empty ops).idx (ident n.2) = some p ∧
        advance (runOps ident Fifo.empty ops).list p = some n) ∧
    ((runOps ident Fifo.empty ops).idx.map (fun e => e.1)).Perm
      ((runOps ident Fifo.empty ops).list.map (fun n => ident n.2)) ∧
    (runOps ident Fifo.empty ops).idx.length = (runOps ident Fifo.empty ops).list.length := by
  have hInv := inv_runOps (inv_empty ident) ops
  refine ⟨inv_pred_advance hInv, inv_keys_perm hInv, ?_⟩
  have hlen := (inv_keys_perm hInv).length_eq
  simpa using hlen

/-- C3 counterexample: in the state reached by a single `emplace_back`
on an empty set the container is not empty and the tail cursor is the
position of the last node itself, not the predecessor of the last node
(which is the sentinel here): the claim as stated fails. -/
theorem tail_not_predecessor_of_last_counterexample :
    (fifo_set.emplace_back (fifo_set.empty : fifo_set.State Nat) 0).1.list ≠ [] ∧
      (fifo_set.emplace_back (fifo_set.empty : fifo_set.State Nat) 0).1.tail ≠
        lastPosFrom Pos.sentinel
          ((fifo_set.emplace_back (fifo_set.empty : fifo_set.State Nat) 0).1.list.dropLast) := by
  decide

/-- C3 amended: after every public operation completes (any operation
sequence from the empty container), the tail cursor equals the position
of the last node itself — the predecessor position for the next append —
and equals the sentinel if and only if the container is empty. -/
theorem tail_is_last_node_position (ident : ε → κ) (ops : List (Op ε κ)) :
    (runOps ident Fifo.empty ops).tail =
      lastPosFrom Pos.sentinel (runOps ident Fifo.empty ops).list ∧
    ((runOps ident Fifo.empty ops).tail = Pos.sentinel ↔
      (runOps ident Fifo.empty ops).list = []) := by
  have hInv := inv_runOps (inv_empty ident) ops
  refine ⟨hInv.2.2.2.2, ?_⟩
  rw [hInv.2.2.2.2]
  constructor
  · intro h
    cases hl : (runOps ident Fifo.empty ops).list with
    | nil => rfl
    | cons x xs =>
      rw [hl] at h
      obtain ⟨j, hj, _⟩ := lastPosFrom_cons_node Pos.sentinel x xs
      rw [hj] at h
      cases h
  · intro h
    rw [h]
    rfl

/-- C6: erasing an identity that is not present leaves the container
entirely unchanged (order list, index, tail and size) and returns
normally — a silent no-op, not an error. -/
theorem erase_absent_is_noop {ident : ε → κ} {s : Fifo ε κ} (hInv : Inv ident s) (k : κ)
    (habsent : ∀ n ∈ s.list, ident n.2 ≠ k) : Fifo.erase ident s k = s :=
  erase_absent ((inv_find_none_iff hInv k).mpr habsent)

/-- Witness for C6: erasing the absent identity 7 from the sample state. -/
theorem erase_absent_is_noop_witness :
    Inv (fun x : Nat => x) sampleSet ∧ (∀ n ∈ sampleSet.list, n.2 ≠ 7) ∧
      Fifo.erase (fun x : Nat => x) sampleSet 7 = sampleSet :=
  ⟨by decide, by decide, erase_absent_is_noop (by decide) 7 (by decide)⟩

/-- C9: move construction (and move assignment, which performs the same
repair) transfers index, order list and tail and re-points the first
node's predecessor entry at the new sentinel; on every well-formed
container the result is the very same container state, so it iterates
the same sequence, has the same size, subsequent operations behave
identically, and the invariants hold in the new instance. -/
theorem move_transfers_and_repairs {ident : ε → κ} {s : Fifo ε κ} (hInv : Inv ident s) :
    Fifo.moveConstruct ident s = s ∧ Inv ident (Fifo.moveConstruct ident s) :=
  ⟨moveConstruct_eq hInv, inv_moveConstruct hInv⟩

/-- Witness for C9 at the sample state. -/
theorem move_transfers_and_repairs_witness :
    Inv (fun x : Nat => x) sampleSet ∧
      (Fifo.moveConstruct (fun x : Nat => x) sampleSet = sampleSet ∧
        Inv (fun x : Nat => x) (Fifo.moveConstruct (fun x : Nat => x) sampleSet)) :=
  ⟨by decide, move_transfers_and_repairs (by decide)⟩

/-- C4: when the identity is already present, `emplace`/`emplace_back`
performs no mutation — the whole state (hence size, iteration order and
every index entry) is unchanged — and returns a handle to the existing
node with a false "not inserted" flag; consequently inserting the same
identity twice is a no-op on the second call. -/
theorem emplace_idempotent {ident : ε → κ} {s : Fifo ε κ} (hInv : Inv ident s) (v : ε) :
    ((∃ n ∈ s.list, ident n.2 = ident v) →
      (Fifo.emplace_back ident s v).1 = s ∧
      (Fifo.emplace_back ident s v).2.2 = false ∧
      ∃ n ∈ s.list, ident n.2 = ident v ∧ (Fifo.emplace_back ident s v).2.1 = some n) ∧
    (Fifo.emplace_back ident (Fifo.emplace_back ident s v).1 v).1
      = (Fifo.emplace_back ident s v).1 := by
  constructor
  · rintro ⟨n, hn, hident⟩
    cases hfind : idxFind s.idx (ident v) with
    | none =>
      rw [inv_find_none_iff hInv] at hfind
      exact absurd hident (hfind n hn)
    | some p =>
      obtain ⟨m, hmmem, hmid, hadv⟩ := inv_find_node hInv hfind
      rw [emplace_back_found hfind]
      exact ⟨rfl, rfl, m, hmmem, hmid, hadv⟩
  · cases hfind : idxFind s.idx (ident v) with
    | some p =>
      rw [emplace_back_found hfind]
      dsimp only
      rw [emplace_back_found hfind]
    | none =>
      rw [emplace_back_absent hInv hfind]
      dsimp only
      have hfind2 : idxFind ((ident v, s.tail) :: s.idx) (ident v) = some s.tail := by
        rw [idxFind_cons, if_pos rfl]
      rw [emplace_back_found hfind2]

/-- Witness for C4: re-inserting the present identity 1 into the sample
state. -/
theorem emplace_idempotent_witness :
    Inv (fun x : Nat => x) sampleSet ∧
      (((∃ n ∈ sampleSet.list, n.2 = 1) →
        (Fifo.emplace_back (fun x : Nat => x) sampleSet 1).1 = sampleSet ∧
        (Fifo.emplace_back (fun x : Nat => x) sampleSet 1).2.2 = false ∧
        ∃ n ∈ sampleSet.list, n.2 = 1 ∧
          (Fifo.emplace_back (fun x : Nat => x) sampleSet 1).2.1 = some n) ∧
      (Fifo.emplace_back (fun x : Nat => x)
          (Fifo.emplace_back (fun x : Nat => x) sampleSet 1).1 1).1
        = (Fifo.emplace_back (fun x : Nat => x) sampleSet 1).1) :=
  ⟨by decide, @emplace_idempotent Nat Nat _ (fun x : Nat => x) sampleSet (by decide) 1⟩

/-- C5: erasing a present identity and re-inserting it with
`emplace_back` places it at the back of the iteration order, not at its
original position; all other elements keep their relative order. -/
theorem erase_reinsert_appends_at_back {ident : ε → κ} {s : Fifo ε κ}
    (hInv : Inv ident s) (v : ε) (hpresent : ∃ n ∈ s.list, ident n.2 = ident v) :
    (Fifo.emplace_back ident (Fifo.erase ident s (ident v)) v).1.toValues
      = s.toValues.filter (fun w => !decide (ident w = ident v)) ++ [v] := by
  obtain ⟨n, hn, hident⟩ := hpresent
  cases hfind : idxFind s.idx (ident v) with
  | none =>
    rw [inv_find_none_iff hInv] at hfind
    exact absurd hident (hfind n hn)
  | some p =>
    obtain ⟨A, m, B, hl, hm, hA, hp⟩ := inv_find_decomp hInv hfind
    obtain ⟨hlist2, hnext2, hInv2⟩ := erase_present hInv hfind hl hm hA hp
    have h3 := hInv.2.2.1
    rw [hl, List.map_append, List.map_cons, List.nodup_append] at h3
    have hBne : ∀ b ∈ B, ident b.2 ≠ ident v := by
      have hcons := h3.2.1
      rw [List.nodup_cons] at hcons
      intro b hb hh
      exact hcons.1 (List.mem_map.mpr ⟨b, hb, hh.trans hm.symm⟩)
    have habs2 : ∀ w ∈ (Fifo.erase ident s (ident v)).list, ident w.2 ≠ ident v := by
      rw [hlist2]
      intro w hw
      rcases List.mem_append.mp hw with h | h
      · exact hA w h
      · exact hBne w h
    have hfind2 : idxFind (Fifo.erase ident s (ident v)).idx (ident v) = none :=
      (inv_find_none_iff hInv2 _).mpr habs2
    have heff := emplace_back_absent hInv2 hfind2
    have hLHS : (Fifo.emplace_back ident (Fifo.erase ident s (ident v)) v).1.toValues
        = (A.map (fun q => q.2) ++ B.map (fun q => q.2)) ++ [v] := by
      rw [heff]
      unfold Fifo.toValues
      dsimp only
      rw [hlist2, List.map_append, List.map_append]
      rfl
    have hRHS : s.toValues.filter (fun w => !decide (ident w = ident v))
        = A.map (fun q => q.2) ++ B.map (fun q => q.2) := by
      unfold Fifo.toValues
      rw [hl, List.map_append, List.map_cons, List.filter_append, List.filter_cons]
      rw [if_neg (by simp [hm])]
      rw [List.filter_eq_self.mpr ?_, List.filter_eq_self.mpr ?_]
      · intro a ha
        obtain ⟨q, hq, hqa⟩ := List.mem_map.mp ha
        subst hqa
        simp [hBne q hq]
      · intro a ha
        obtain ⟨q, hq, hqa⟩ := List.mem_map.mp ha
        subst hqa
        simp [hA q hq]
    rw [hLHS, hRHS]

/-- Witness for C5: erase and re-insert the middle element 1 of the
sample state; it moves to the back. -/
theorem erase_reinsert_appends_at_back_witness :
    Inv (fun x : Nat => x) sampleSet ∧ (∃ n ∈ sampleSet.list, n.2 = 1) ∧
      (Fifo.emplace_back (fun x : Nat => x)
          (Fifo.erase (fun x : Nat => x) sampleSet 1) 1).1.toValues
        = sampleSet.toValues.filter (fun w => !decide (w = 1)) ++ [1] :=
  ⟨by decide, by decide, erase_reinsert_appends_at_back (by decide) 1 (by decide)⟩

/-- C7: on the set facade, `emplace_front` with an absent value inserts
the new node immediately after the sentinel so that it becomes the first
element, rebinds the previously-first node's predecessor index entry to
point at the new node, and, if the container was empty, additionally
makes the new node the tail; with a present value no mutation occurs and
a handle to the existing node with a false flag is returned. -/
theorem emplace_front_behavior {α : Type} [DecidableEq α] {s : fifo_set.State α}
    (hInv : Inv (id : α → α) s) (v : α) :
    ((∀ n ∈ s.list, n.2 ≠ v) →
      (fifo_set.emplace_front s v).1.list = (s.nextId, v) :: s.list ∧
      (fifo_set.emplace_front s v).2 = (some (s.nextId, v), true) ∧
      (∀ front, s.list.head? = some front →
        idxFind (fifo_set.emplace_front s v).1.idx front.2 = some (Pos.node s.nextId)) ∧
      (s.list = [] → (fifo_set.emplace_front s v).1.tail = Pos.node s.nextId)) ∧
    ((∃ n ∈ s.list, n.2 = v) →
      (fifo_set.emplace_front s v).1 = s ∧
      (fifo_set.emplace_front s v).2.2 = false ∧
      ∃ n ∈ s.list, n.2 = v ∧ (fifo_set.emplace_front s v).2.1 = some n) := by
  constructor
  · intro habs
    have hfind : idxFind s.idx (id v) = none :=
      (inv_find_none_iff hInv _).mpr habs
    have h := emplace_front_absent hInv hfind
    exact ⟨h.1, h.2.1, h.2.2.1, h.2.2.2.1⟩
  · rintro ⟨n, hn, hident⟩
    cases hfind : idxFind s.idx (id v) with
    | none =>
      rw [inv_find_none_iff hInv] at hfind
      exact absurd hident (hfind n hn)
    | some p =>
      obtain ⟨m, hmmem, hmid, hadv⟩ := inv_find_node hInv hfind
      rw [show fifo_set.emplace_front s v = (s, advance s.list p, false) from
        emplace_front_found hfind]
      exact ⟨rfl, rfl, m, hmmem, hmid, hadv⟩

/-- Witness for C7: pushing the absent value 9 to the front of the
sample state. -/
theorem emplace_front_behavior_witness :
    Inv (id : Nat → Nat) sampleSet ∧
      (((∀ n ∈ sampleSet.list, n.2 ≠ 9) →
        (fifo_set.emplace_front sampleSet 9).1.list
          = (sampleSet.nextId, 9) :: sampleSet.list ∧
        (fifo_set.emplace_front sampleSet 9).2 = (some (sampleSet.nextId, 9), true) ∧
        (∀ front, sampleSet.list.head? = some front →
          idxFind (fifo_set.emplace_front sampleSet 9).1.idx front.2
            = some (Pos.node sampleSet.nextId)) ∧
        (sampleSet.list = [] →
          (fifo_set.emplace_front sampleSet 9).1.tail = Pos.node sampleSet.nextId)) ∧
      ((∃ n ∈ sampleSet.list, n.2 = 9) →
        (fifo_set.emplace_front sampleSet 9).1 = sampleSet ∧
        (fifo_set.emplace_front sampleSet 9).2.2 = false ∧
        ∃ n ∈ sampleSet.list, n.2 = 9 ∧
          (fifo_set.emplace_front sampleSet 9).2.1 = some n)) :=
  ⟨by decide, @emplace_front_behavior Nat _ sampleSet (by decide) 9⟩

/-- C10: the set facade's copy assignment first clears the destination
and then re-inserts the source's elements in iteration order, so a
well-formed distinct source is reproduced exactly; on self-assignment
the source range has already been cleared when it is iterated, so the
container ends up empty (size 0) instead of keeping its contents. -/
theorem copy_assign_clears_then_reinserts {α : Type} [DecidableEq α]
    (dst src t : fifo_set.State α) :
    (Inv (id : α → α) src →
      (fifo_set.copyAssign dst src).toValues = src.toValues) ∧
    (fifo_set.copyAssignSelf t).size = 0 ∧
    (fifo_set.copyAssignSelf t).list = [] := by
  refine ⟨?_, rfl, rfl⟩
  intro hInv
  have hfold : fifo_set.copyAssign dst src
      = insertAll (id : α → α) (Fifo.clear dst) src.toValues := rfl
  have hnd : (src.toValues.map (id : α → α)).Nodup := by
    rw [List.map_id]
    exact hInv.2.2.1
  have h := insertAll_toValues (inv_clear (id : α → α) dst) hnd
    (by intro v hv n hn; cases hn)
  rw [hfold, h.1]
  rfl

/-- Witness for C10: copying the sample state into an empty destination
reproduces it, and self-assignment empties the container. -/
theorem copy_assign_clears_then_reinserts_witness :
    (fifo_set.copyAssign Fifo.empty sampleSet).toValues = sampleSet.toValues ∧
    (fifo_set.copyAssignSelf sampleSet).size = 0 :=
  ⟨(copy_assign_clears_then_reinserts Fifo.empty sampleSet sampleSet).1 (by decide),
    (copy_assign_clears_then_reinserts Fifo.empty sampleSet sampleSet).2.1⟩

/-- A sample reachable map-facade state (keys 0 and 1 with mapped values
10 and 11). -/
def sampleMap : fifo_map.State Nat Nat :=
  (fifo_map.emplace_back ((fifo_map.emplace_back
    (fifo_map.empty : fifo_map.State Nat Nat) (0, 10)).1) (1, 11)).1

/-- C8: on the map facade, `at` fails (out-of-range, modelled as `none`)
exactly when the key is absent and otherwise returns the stored mapped
value; `operator[]` returns the existing mapped value when the key is
present, and otherwise inserts the key at the back with a
default-constructed mapped value and hands back that node — it never
fails; in particular, on an empty map `m[k] = 1` creates the key with
value 1, `at` then returns 1, and after `erase` of the key `at` fails
again. -/
theorem at_and_opIndex_behavior {κ' μ : Type} [DecidableEq κ'] [Inhabited μ]
    {s : fifo_map.State κ' μ} (hInv : Inv Prod.fst s) (k : κ') :
    (fifo_map.at? s k = none ↔ ∀ n ∈ s.list, n.2.1 ≠ k) ∧
    (∀ n ∈ s.list, n.2.1 = k → fifo_map.at? s k = some n.2.2) ∧
    ((∀ n ∈ s.list, n.2.1 ≠ k) →
      (fifo_map.opIndex s k).1.toValues = s.toValues ++ [(k, default)] ∧
      (fifo_map.opIndex s k).2 = some (s.nextId, (k, default))) ∧
    (∀ n ∈ s.list, n.2.1 = k → fifo_map.opIndex s k = (s, some n)) ∧
    (fifo_map.at? (fifo_map.assign (fifo_map.empty : fifo_map.State Nat Nat) 0 1) 0
        = some 1 ∧
      fifo_map.at? (fifo_map.erase
        (fifo_map.assign (fifo_map.empty : fifo_map.State Nat Nat) 0 1) 0) 0 = none) := by
  have hpres : ∀ n ∈ s.list, n.2.1 = k → fifo_map.at? s k = some n.2.2 := by
    intro n hn hk
    cases hfind : idxFind s.idx k with
    | none =>
      rw [inv_find_none_iff hInv] at hfind
      exact absurd hk (hfind n hn)
    | some p =>
      obtain ⟨m, hmmem, hmid, hadv⟩ := inv_find_node hInv hfind
      have hmn : m = n := inv_ident_inj hInv hmmem hn (hmid.trans hk.symm)
      unfold fifo_map.at?
      rw [hfind]
      dsimp only
      rw [hadv, hmn]
      rfl
  have hiff : fifo_map.at? s k = none ↔ ∀ n ∈ s.list, n.2.1 ≠ k := by
    constructor
    · intro h
      by_contra hcon
      push_neg at hcon
      obtain ⟨n, hn, hk⟩ := hcon
      rw [hpres n hn hk] at h
      cases h
    · intro habs
      unfold fifo_map.at?
      rw [(inv_find_none_iff hInv k).mpr habs]
  have habsop : (∀ n ∈ s.list, n.2.1 ≠ k) →
      (fifo_map.opIndex s k).1.toValues = s.toValues ++ [(k, default)] ∧
      (fifo_map.opIndex s k).2 = some (s.nextId, (k, default)) := by
    intro habs
    have hfind : idxFind s.idx k = none := (inv_find_none_iff hInv k).mpr habs
    have hfindnode : fifo_map.find s k = none := by
      unfold fifo_map.find Fifo.find
      rw [hfind]
    have hfind0 : idxFind s.idx (Prod.fst ((k, (default : μ)))) = none := hfind
    have heff := emplace_back_absent hInv hfind0
    have hop : fifo_map.opIndex s k =
        ((Fifo.emplace_back Prod.fst s (k, default)).1,
          (Fifo.emplace_back Prod.fst s (k, default)).2.1) := by
      unfold fifo_map.opIndex
      rw [hfindnode]
      rfl
    rw [hop, heff]
    constructor
    · unfold Fifo.toValues
      dsimp only
      rw [List.map_append]
      rfl
    · rfl
  have hpresop : ∀ n ∈ s.list, n.2.1 = k → fifo_map.opIndex s k = (s, some n) := by
    intro n hn hk
    cases hfind : idxFind s.idx k with
    | none =>
      rw [inv_find_none_iff hInv] at hfind
      exact absurd hk (hfind n hn)
    | some p =>
      obtain ⟨m, hmmem, hmid, hadv⟩ := inv_find_node hInv hfind
      have hmn : m = n := inv_ident_inj hInv hmmem hn (hmid.trans hk.symm)
      have hfindnode : fifo_map.find s k = some n := by
        unfold fifo_map.find Fifo.find
        rw [hfind]
        dsimp only
        rw [hadv, hmn]
      unfold fifo_map.opIndex
      rw [hfindnode]
  exact ⟨hiff, hpres, habsop, hpresop, by decide, by decide⟩

/-- Witness for C8 at the sample map and the present key 0. -/
theorem at_and_opIndex_behavior_witness :
    Inv (Prod.fst : Nat × Nat → Nat) sampleMap ∧
      ((fifo_map.at? sampleMap 0 = none ↔ ∀ n ∈ sampleMap.list, n.2.1 ≠ 0) ∧
      (∀ n ∈ sampleMap.list, n.2.1 = 0 → fifo_map.at? sampleMap 0 = some n.2.2) ∧
      ((∀ n ∈ sampleMap.list, n.2.1 ≠ 0) →
        (fifo_map.opIndex sampleMap 0).1.toValues
          = sampleMap.toValues ++ [(0, default)] ∧
        (fifo_map.opIndex sampleMap 0).2 = some (sampleMap.nextId, (0, default))) ∧
      (∀ n ∈ sampleMap.list, n.2.1 = 0 →
        fifo_map.opIndex sampleMap 0 = (sampleMap, some n)) ∧
      (fifo_map.at? (fifo_map.assign (fifo_map.empty : fifo_map.State Nat Nat) 0 1) 0
          = some 1 ∧
        fifo_map.at? (fifo_map.erase
          (fifo_map.assign (fifo_map.empty : fifo_map.State Nat Nat) 0 1) 0) 0 = none)) :=
  ⟨by decide, @at_and_opIndex_behavior Nat Nat _ _ sampleMap (by decide) 0⟩

end FifoSpec
